import Mathlib

/-!
Verification of the asynchronous job lifecycle and export archive core of
Firecrawl Explorer (src/firecrawl_explorer.py). The Python functions are
shallowly embedded as Lean functions: the on-disk archive becomes a list of
filenames, HTTP transport becomes an explicit function from requests to
responses, and the polling loop is driven by an explicit status source.
-/

namespace FirecrawlSpec

/-! ## Decimal numerals

The collision counter is rendered with Python's decimal `str`, embedded here
as `Nat.repr`. We prove `Nat.repr` injective by exhibiting a left inverse
that folds the digit characters back into a number.
-/

/-- Numeric value of a decimal digit character, a left inverse to `Nat.digitChar`
on digits below ten. -/
def chVal (c : Char) : Nat := c.toNat - 48

/-- Append the decimal digits of `n` to the accumulator `acc`, most significant
digit first. -/
def pushNum (acc n : Nat) : Nat :=
  if h : n < 10 then acc * 10 + n
  else pushNum acc (n / 10) * 10 + n % 10
termination_by n
decreasing_by exact Nat.div_lt_self (by omega) (by omega)

/-- Fold a digit-character list back into the number it denotes. -/
def digitsVal (l : List Char) : Nat := l.foldl (fun acc c => acc * 10 + chVal c) 0

theorem chVal_digitChar (d : Nat) (h : d < 10) : chVal (Nat.digitChar d) = d := by
  interval_cases d <;> rfl

theorem foldl_toDigitsCore (fuel : Nat) : ∀ n ds acc, n < fuel →
    (Nat.toDigitsCore 10 fuel n ds).foldl (fun acc c => acc * 10 + chVal c) acc =
      ds.foldl (fun acc c => acc * 10 + chVal c) (pushNum acc n) := by
  induction fuel with
  | zero => intro n ds acc hn; omega
  | succ f ih =>
    intro n ds acc hn
    simp only [Nat.toDigitsCore]
    have hv : chVal ((n % 10).digitChar) = n % 10 :=
      chVal_digitChar _ (Nat.mod_lt _ (by omega))
    by_cases h0 : n / 10 = 0
    · have hlt : n < 10 := by omega
      simp only [h0, if_true, List.foldl_cons, hv]
      rw [pushNum]
      simp [hlt, Nat.mod_eq_of_lt hlt]
    · have hge : ¬ n < 10 := fun hlt => h0 (Nat.div_eq_of_lt hlt)
      simp only [h0, if_false]
      rw [ih (n / 10) _ acc (by omega), List.foldl_cons, hv]
      conv_rhs => rw [pushNum]
      rw [dif_neg hge]

theorem pushNum_zero (n : Nat) : pushNum 0 n = n := by
  induction n using Nat.strong_induction_on with
  | _ n ih =>
    rw [pushNum]
    by_cases h : n < 10
    · simp [h]
    · simp only [h, dite_false]
      rw [ih (n / 10) (Nat.div_lt_self (by omega) (by omega))]
      omega

theorem digitsVal_toDigits (n : Nat) : digitsVal (Nat.toDigits 10 n) = n := by
  unfold digitsVal Nat.toDigits
  rw [foldl_toDigitsCore (n + 1) n [] 0 (by omega)]
  simp [pushNum_zero]

theorem natRepr_injective : Function.Injective Nat.repr := by
  intro m n h
  have hd : Nat.toDigits 10 m = Nat.toDigits 10 n := congrArg String.data h
  have := congrArg digitsVal hd
  rwa [digitsVal_toDigits, digitsVal_toDigits] at this

theorem string_data_inj {s t : String} (h : s.data = t.data) : s = t := by
  cases s
  cases t
  exact congrArg String.mk h

/-! ## Path splitting

Embedding of `os.path.splitext` for plain filenames (no directory
separators): the extension starts at the last dot, except when every
character before that dot is itself a dot, in which case there is no
extension.
-/

/-- Split a character list at its last dot: returns the part before the last
dot and the part from the last dot on, or `none` when no dot occurs. -/
def splitAtLastDot : List Char → Option (List Char × List Char)
  | [] => none
  | c :: cs =>
    match splitAtLastDot cs with
    | some (a, b) => some (c :: a, b)
    | none => if c = '.' then some ([], c :: cs) else none

/-- Embedding of `os.path.splitext` applied to a bare filename. -/
def splitext (s : String) : String × String :=
  match splitAtLastDot s.data with
  | none => (s, "")
  | some (a, b) => if a.all (fun c => c = '.') then (s, "") else (String.mk a, String.mk b)

theorem splitAtLastDot_append : ∀ (l a b : List Char),
    splitAtLastDot l = some (a, b) → a ++ b = l := by
  intro l
  induction l with
  | nil => intro a b h; simp [splitAtLastDot] at h
  | cons c cs ih =>
    intro a b h
    cases hrec : splitAtLastDot cs with
    | some p =>
      obtain ⟨a', b'⟩ := p
      simp only [splitAtLastDot, hrec, Option.some.injEq, Prod.mk.injEq] at h
      obtain ⟨rfl, rfl⟩ := h
      simpa using ih a' b' hrec
    | none =>
      by_cases hc : c = '.'
      · simp only [splitAtLastDot, hrec, hc, if_true, Option.some.injEq, Prod.mk.injEq] at h
        obtain ⟨rfl, rfl⟩ := h
        simp [hc]
      · simp [splitAtLastDot, hrec, hc] at h

/-- The two components returned by `splitext` concatenate back to the input. -/
theorem splitext_concat (s : String) : (splitext s).1 ++ (splitext s).2 = s := by
  unfold splitext
  cases h : splitAtLastDot s.data with
  | none => simp
  | some p =>
    cases p with
    | mk a b =>
      by_cases hall : a.all (fun c => c = '.')
      · simp [hall]
      · simp only [hall, if_false]
        apply string_data_inj
        have : a ++ b = s.data := splitAtLastDot_append s.data a b h
        simpa [String.data_append] using this

/-! ## Export archive: `save_to_file`

Embedding of `FirecrawlClient.save_to_file` (lines 232-287). The target
directory is modelled as the list of filenames it currently contains; the
function resolves the filename (extension completion, then the `_1`, `_2`, …
collision counter) and prepends the resolved name to the directory listing.
The unbounded `while` loop over the counter takes explicit fuel; `none`
stands for running out of fuel, which never happens with enough fuel.
-/

/-- Python's `str.endswith`: the candidate ending is a suffix of the string. -/
def strEndsWith (s ending : String) : Bool :=
  List.isSuffixOf ending.data s.data

/-- The recognized-extension test from `save_to_file`:
`filename.endswith((".md", ".html", ".txt", ".json"))`. -/
def recognizedExtension (filename : String) : Bool :=
  strEndsWith filename ".md" || strEndsWith filename ".html" ||
    strEndsWith filename ".txt" || strEndsWith filename ".json"

/-- Extension completion from `save_to_file`: when the filename lacks a
recognized extension, append one derived from the format type. -/
def addExtension (filename format_type : String) : String :=
  if recognizedExtension filename then filename
  else if format_type = "markdown" then filename ++ ".md"
  else if format_type = "html" then filename ++ ".html"
  else if format_type = "json" then filename ++ ".json"
  else filename ++ ".txt"

/-- The candidate filename built inside the collision loop:
the Python f-string interpolating base name, counter, and extension. -/
def counterName (b e : String) (k : Nat) : String :=
  b ++ "_" ++ Nat.repr k ++ e

/-- The collision `while` loop of `save_to_file`: starting at `counter`, find
the first counter whose candidate name is not in the directory. -/
def findAvailable (fs : List String) (b e : String) : Nat → Nat → Option String
  | 0, _ => none
  | fuel + 1, counter =>
    let cand := counterName b e counter
    if cand ∈ fs then findAvailable fs b e fuel (counter + 1)
    else some cand

/-- Embedding of `FirecrawlClient.save_to_file`: returns the stored filename
and the directory listing after the write. -/
def save_to_file (fs : List String) (filename format_type : String) (fuel : Nat) :
    Option (String × List String) :=
  let fn := addExtension filename format_type
  if fn ∈ fs then
    match findAvailable fs (splitext fn).1 (splitext fn).2 fuel 1 with
    | some p => some (p, p :: fs)
    | none => none
  else
    some (fn, fn :: fs)

/-- A sequence of `n` saves of the same filename and format into the same
directory; returns the stored filenames in order together with the final
directory listing. -/
def saveSeq (filename format_type : String) (fuel : Nat) :
    List String → Nat → Option (List String × List String)
  | fs, 0 => some ([], fs)
  | fs, n + 1 =>
    match save_to_file fs filename format_type fuel with
    | none => none
    | some pr =>
      match saveSeq filename format_type fuel pr.2 n with
      | none => none
      | some pr2 => some (pr.1 :: pr2.1, pr2.2)

/-- The filename the `k`-th save (counting from zero) resolves to when the
saves collide only with each other. -/
def expectedName (filename format_type : String) : Nat → String
  | 0 => addExtension filename format_type
  | k + 1 =>
    counterName (splitext (addExtension filename format_type)).1
      (splitext (addExtension filename format_type)).2 (k + 1)

/-- The directory listing after `m` colliding saves into a directory that
started as `fs₀`. -/
def archiveAfter (fs₀ : List String) (filename format_type : String) (m : Nat) : List String :=
  ((List.range m).map (expectedName filename format_type)).reverse ++ fs₀

theorem counterName_ne_plain (b e : String) (k : Nat) : counterName b e k ≠ b ++ e := by
  intro h
  have hlen := congrArg String.length h
  have h1 : "_".length = 1 := rfl
  simp only [counterName, String.length_append, h1] at hlen
  omega

theorem counterName_inj (b e : String) {j k : Nat}
    (h : counterName b e j = counterName b e k) : j = k := by
  have hd := congrArg String.data h
  simp only [counterName, String.data_append, List.append_assoc,
    List.append_right_inj, List.append_left_inj] at hd
  exact natRepr_injective (string_data_inj hd)

theorem expectedName_pos (filename ft : String) (j : Nat) (hj : 1 ≤ j) :
    expectedName filename ft j =
      counterName (splitext (addExtension filename ft)).1
        (splitext (addExtension filename ft)).2 j := by
  cases j with
  | zero => omega
  | succ j => rfl

theorem expectedName_inj (filename ft : String) :
    Function.Injective (expectedName filename ft) := by
  intro j k h
  cases j with
  | zero =>
    cases k with
    | zero => rfl
    | succ k =>
      exact absurd (h.symm.trans (splitext_concat (addExtension filename ft)).symm)
        (counterName_ne_plain _ _ (k + 1))
  | succ j =>
    cases k with
    | zero =>
      exact absurd (h.trans (splitext_concat (addExtension filename ft)).symm)
        (counterName_ne_plain _ _ (j + 1))
    | succ k =>
      have := counterName_inj _ _ (h : counterName _ _ (j + 1) = counterName _ _ (k + 1))
      omega

theorem mem_archiveAfter (fs₀ : List String) (filename ft : String) (m : Nat) (x : String) :
    x ∈ archiveAfter fs₀ filename ft m ↔
      (∃ k, k < m ∧ expectedName filename ft k = x) ∨ x ∈ fs₀ := by
  simp [archiveAfter]

theorem expectedName_not_mem (fs₀ : List String) (filename ft : String)
    (h0 : addExtension filename ft ∉ fs₀)
    (hk : ∀ j, 1 ≤ j →
      counterName (splitext (addExtension filename ft)).1
        (splitext (addExtension filename ft)).2 j ∉ fs₀)
    (m : Nat) :
    expectedName filename ft m ∉ archiveAfter fs₀ filename ft m := by
  rw [mem_archiveAfter]
  rintro (⟨k, hkm, he⟩ | hmem)
  · have := expectedName_inj filename ft he
    omega
  · cases m with
    | zero => exact h0 hmem
    | succ m => exact hk (m + 1) (by omega) hmem

theorem findAvailable_eq (fs : List String) (b e : String) :
    ∀ fuel s k, s ≤ k → k < s + fuel →
      (∀ j, s ≤ j → j < k → counterName b e j ∈ fs) →
      counterName b e k ∉ fs →
      findAvailable fs b e fuel s = some (counterName b e k) := by
  intro fuel
  induction fuel with
  | zero => intro s k h1 h2 _ _; omega
  | succ f ih =>
    intro s k h1 h2 hmem hfree
    simp only [findAvailable]
    by_cases hsk : s = k
    · subst hsk
      simp [hfree]
    · have hin : counterName b e s ∈ fs := hmem s le_rfl (by omega)
      simp only [hin, if_true]
      exact ih (s + 1) k (by omega) (by omega) (fun j hj1 hj2 => hmem j (by omega) hj2) hfree

theorem archiveAfter_zero (fs₀ : List String) (filename ft : String) :
    archiveAfter fs₀ filename ft 0 = fs₀ := by
  simp [archiveAfter]

theorem archiveAfter_succ (fs₀ : List String) (filename ft : String) (m : Nat) :
    archiveAfter fs₀ filename ft (m + 1) =
      expectedName filename ft m :: archiveAfter fs₀ filename ft m := by
  simp [archiveAfter, List.range_succ]

theorem save_to_file_step (fs₀ : List String) (filename ft : String) (F m : Nat)
    (h0 : addExtension filename ft ∉ fs₀)
    (hk : ∀ j, 1 ≤ j →
      counterName (splitext (addExtension filename ft)).1
        (splitext (addExtension filename ft)).2 j ∉ fs₀)
    (hF : m ≤ F) :
    save_to_file (archiveAfter fs₀ filename ft m) filename ft F =
      some (expectedName filename ft m, archiveAfter fs₀ filename ft (m + 1)) := by
  unfold save_to_file
  cases m with
  | zero =>
    have hnot : addExtension filename ft ∉ archiveAfter fs₀ filename ft 0 := by
      rw [archiveAfter_zero]
      exact h0
    simp only [hnot, if_false]
    rw [archiveAfter_succ, archiveAfter_zero]
    rfl
  | succ m =>
    have hfn : addExtension filename ft ∈ archiveAfter fs₀ filename ft (m + 1) := by
      rw [mem_archiveAfter]
      exact Or.inl ⟨0, by omega, rfl⟩
    simp only [hfn, if_true]
    have hfind :
        findAvailable (archiveAfter fs₀ filename ft (m + 1))
          (splitext (addExtension filename ft)).1
          (splitext (addExtension filename ft)).2 F 1 =
        some (counterName (splitext (addExtension filename ft)).1
          (splitext (addExtension filename ft)).2 (m + 1)) := by
      apply findAvailable_eq _ _ _ F 1 (m + 1) (by omega) (by omega)
      · intro j hj1 hj2
        rw [← expectedName_pos filename ft j hj1, mem_archiveAfter]
        exact Or.inl ⟨j, by omega, rfl⟩
      · rw [← expectedName_pos filename ft (m + 1) (by omega)]
        exact expectedName_not_mem fs₀ filename ft h0 hk (m + 1)
    rw [hfind]
    rw [archiveAfter_succ fs₀ filename ft (m + 1), expectedName_pos filename ft (m + 1) (by omega)]

theorem saveSeq_archiveAfter (fs₀ : List String) (filename ft : String) (F : Nat)
    (h0 : addExtension filename ft ∉ fs₀)
    (hk : ∀ j, 1 ≤ j →
      counterName (splitext (addExtension filename ft)).1
        (splitext (addExtension filename ft)).2 j ∉ fs₀) :
    ∀ r m, m + r ≤ F →
      saveSeq filename ft F (archiveAfter fs₀ filename ft m) r =
        some ((List.range' m r).map (expectedName filename ft),
          archiveAfter fs₀ filename ft (m + r)) := by
  intro r
  induction r with
  | zero => intro m hm; simp [saveSeq, List.range']
  | succ r ih =>
    intro m hm
    have harith : m + 1 + r = m + (r + 1) := by omega
    rw [saveSeq]
    simp only [save_to_file_step fs₀ filename ft F m h0 hk (by omega)]
    simp only [ih (m + 1) (by omega)]
    rw [List.range'_succ]
    simp [harith]

/-- C1: a sequence of `N` saves of the same base filename (and format) into the
same category directory stores `N` pairwise distinct files; the first save is
stored under the resolved filename `base ++ ext`, the `k`-th save for `k > 1`
under `base_(k-1) ++ ext` with the collision counter inserted before the
extension (`expectedName`), and every stored path is fresh at the moment it is
written, so no previously existing file is ever overwritten. -/
theorem save_to_file_collision_avoidance (fs₀ : List String) (filename ft : String) (N : Nat)
    (h0 : addExtension filename ft ∉ fs₀)
    (hk : ∀ j, 1 ≤ j →
      counterName (splitext (addExtension filename ft)).1
        (splitext (addExtension filename ft)).2 j ∉ fs₀) :
    saveSeq filename ft N fs₀ N =
      some ((List.range N).map (expectedName filename ft),
        ((List.range N).map (expectedName filename ft)).reverse ++ fs₀) ∧
    ((List.range N).map (expectedName filename ft)).Nodup ∧
    (∀ p ∈ (List.range N).map (expectedName filename ft), p ∉ fs₀) ∧
    (∀ k, k < N → expectedName filename ft k ∉ archiveAfter fs₀ filename ft k) := by
  refine ⟨?_, ?_, ?_, ?_⟩
  · have h := saveSeq_archiveAfter fs₀ filename ft N h0 hk N 0 (by omega)
    rw [archiveAfter_zero] at h
    rw [List.range_eq_range', h]
    simp [archiveAfter, List.range_eq_range']
  · exact (List.nodup_range N).map (expectedName_inj filename ft)
  · intro p hp
    simp only [List.mem_map, List.mem_range] at hp
    obtain ⟨k, _, rfl⟩ := hp
    cases k with
    | zero => exact h0
    | succ k => exact hk (k + 1) (by omega)
  · intro k _
    exact expectedName_not_mem fs₀ filename ft h0 hk k

theorem save_to_file_collision_avoidance_witness :
    saveSeq "example" "json" 2 [] 2 =
      some (["example.json", "example_1.json"], ["example_1.json", "example.json"]) := by
  have h := (save_to_file_collision_avoidance [] "example" "json" 2
    (by simp) (fun j hj => List.not_mem_nil _)).1
  have he : (List.range 2).map (expectedName "example" "json") =
      ["example.json", "example_1.json"] := by decide
  rw [he] at h
  simpa using h

/-! ## Job Poller: `wait_for_crawl_completion`

Embedding of `FirecrawlClient.wait_for_crawl_completion` (lines 195-230).
The remote status endpoint is modelled as a function from the index of the
status call (how many calls happened before it) to the parsed response; the
`status.get("status")` lookup becomes an `Option String` field. The trace
records the returned outcome together with how many status calls and how
many `time.sleep(poll_interval)` calls the loop performed.
-/

/-- A parsed crawl-status response: the value of its `status` key (absent
keys give `none`, matching `dict.get`), plus the rest of the payload. -/
structure StatusResponse where
  status : Option String
  body : String
deriving DecidableEq, Repr

/-- Outcome of the polling loop: the completed status response, or the
timeout error raised after the loop, carrying the seconds reported in its
message (`max_attempts * poll_interval`). -/
inductive PollOutcome where
  | completed (resp : StatusResponse)
  | timedOut (elapsedSeconds : Nat)
deriving DecidableEq, Repr

/-- Execution trace of `wait_for_crawl_completion`. -/
structure PollTrace where
  outcome : PollOutcome
  calls : Nat
  sleeps : Nat
deriving DecidableEq, Repr

/-- The `while attempts < max_attempts` loop, by recursion on the remaining
attempts. Each iteration checks the status once; on completion it returns,
otherwise it increments the attempt counter, sleeps once, and retries. -/
def pollLoop (source : Nat → StatusResponse) (poll_interval max_attempts : Nat)
    (calls sleeps : Nat) : Nat → PollTrace
  | 0 => ⟨.timedOut (max_attempts * poll_interval), calls, sleeps⟩
  | remaining + 1 =>
    let resp := source calls
    if resp.status = some "completed" then ⟨.completed resp, calls + 1, sleeps⟩
    else pollLoop source poll_interval max_attempts (calls + 1) (sleeps + 1) remaining

/-- Embedding of `wait_for_crawl_completion`: run the polling loop starting
from zero attempts. -/
def wait_for_crawl_completion (source : Nat → StatusResponse)
    (poll_interval max_attempts : Nat) : PollTrace :=
  pollLoop source poll_interval max_attempts 0 0 max_attempts

theorem pollLoop_never_completed (source : Nat → StatusResponse)
    (poll_interval max_attempts : Nat)
    (h : ∀ n, (source n).status ≠ some "completed") :
    ∀ remaining calls sleeps,
      pollLoop source poll_interval max_attempts calls sleeps remaining =
        ⟨.timedOut (max_attempts * poll_interval), calls + remaining, sleeps + remaining⟩ := by
  intro remaining
  induction remaining with
  | zero => intro calls sleeps; simp [pollLoop]
  | succ r ih =>
    intro calls sleeps
    rw [pollLoop]
    simp only [h calls, if_false]
    rw [ih (calls + 1) (sleeps + 1)]
    congr 1 <;> omega

theorem pollLoop_calls_le (source : Nat → StatusResponse)
    (poll_interval max_attempts : Nat) :
    ∀ remaining calls sleeps,
      (pollLoop source poll_interval max_attempts calls sleeps remaining).calls ≤
        calls + remaining := by
  intro remaining
  induction remaining with
  | zero => intro calls sleeps; simp [pollLoop]
  | succ r ih =>
    intro calls sleeps
    rw [pollLoop]
    by_cases hc : (source calls).status = some "completed"
    · simp only [hc, if_true]
      omega
    · simp only [hc, if_false]
      have := ih (calls + 1) (sleeps + 1)
      omega

theorem pollLoop_completes_at (source : Nat → StatusResponse)
    (poll_interval max_attempts : Nat) (M : Nat)
    (hpend : ∀ n, n < M - 1 → (source n).status ≠ some "completed")
    (hdone : (source (M - 1)).status = some "completed") :
    ∀ remaining calls sleeps, 1 ≤ remaining → calls + remaining = M →
      pollLoop source poll_interval max_attempts calls sleeps remaining =
        ⟨.completed (source (M - 1)), M, sleeps + (M - 1 - calls)⟩ := by
  intro remaining
  induction remaining with
  | zero => intro calls sleeps h1 _; omega
  | succ r ih =>
    intro calls sleeps _ h2
    rw [pollLoop]
    by_cases hr : r = 0
    · subst hr
      have hcalls : calls = M - 1 := by omega
      subst hcalls
      simp only [hdone, if_true]
      have : M - 1 + 1 = M := by omega
      simp [this]
    · have hlt : calls < M - 1 := by omega
      simp only [hpend calls hlt, if_false]
      rw [ih (calls + 1) (sleeps + 1) (by omega) (by omega)]
      congr 1
      omega

/-- C2 counterexample input: a status source that always reports the
(never-completed) status `scraping`. With `max_attempts = 3` the loop
performs three sleeps, not the two (`maxAttempts - 1`) the claim states. -/
theorem wait_for_crawl_completion_sleeps_counterexample :
    (wait_for_crawl_completion (fun _ => StatusResponse.mk (some "scraping") "b") 2 3).sleeps ≠
      3 - 1 := by
  decide

/-- C2 (amended): with a status source that never reports completion,
`wait_for_crawl_completion` raises the timeout error carrying
`max_attempts * poll_interval` seconds after exactly `max_attempts` status
calls and exactly `max_attempts` sleeps (the loop sleeps after every failed
attempt, including the last). -/
theorem wait_for_crawl_completion_timeout (source : Nat → StatusResponse)
    (poll_interval max_attempts : Nat)
    (h : ∀ n, (source n).status ≠ some "completed") :
    wait_for_crawl_completion source poll_interval max_attempts =
      ⟨.timedOut (max_attempts * poll_interval), max_attempts, max_attempts⟩ := by
  unfold wait_for_crawl_completion
  rw [pollLoop_never_completed source poll_interval max_attempts h max_attempts 0 0]
  congr 1 <;> omega

theorem wait_for_crawl_completion_timeout_witness :
    wait_for_crawl_completion (fun _ => StatusResponse.mk (some "scraping") "b") 2 3 =
      ⟨.timedOut 6, 3, 3⟩ := by
  exact wait_for_crawl_completion_timeout (fun _ => StatusResponse.mk (some "scraping") "b") 2 3
    (fun n => by simp)

/-- C3: if the status source reports a non-completed status on the first
`max_attempts - 1` calls and completion on the last, the poller returns that
completed response after exactly `max_attempts` status calls; moreover, for
every source whatsoever, the poller performs at most `max_attempts` status
calls. -/
theorem wait_for_crawl_completion_success (source : Nat → StatusResponse)
    (poll_interval max_attempts : Nat)
    (h1 : 1 ≤ max_attempts)
    (hpend : ∀ n, n < max_attempts - 1 → (source n).status ≠ some "completed")
    (hdone : (source (max_attempts - 1)).status = some "completed") :
    wait_for_crawl_completion source poll_interval max_attempts =
      ⟨.completed (source (max_attempts - 1)), max_attempts, max_attempts - 1⟩ ∧
    ∀ (src : Nat → StatusResponse) (p M : Nat),
      (wait_for_crawl_completion src p M).calls ≤ M := by
  constructor
  · unfold wait_for_crawl_completion
    rw [pollLoop_completes_at source poll_interval max_attempts max_attempts hpend hdone
      max_attempts 0 0 (by omega) (by omega)]
    congr 1
    omega
  · intro src p M
    have := pollLoop_calls_le src p M M 0 0
    unfold wait_for_crawl_completion
    omega

theorem wait_for_crawl_completion_success_witness :
    wait_for_crawl_completion
        (fun n => if n < 2 then StatusResponse.mk (some "scraping") "b"
          else StatusResponse.mk (some "completed") "done") 2 3 =
      ⟨.completed (StatusResponse.mk (some "completed") "done"), 3, 2⟩ := by
  have h := (wait_for_crawl_completion_success
    (fun n => if n < 2 then StatusResponse.mk (some "scraping") "b"
      else StatusResponse.mk (some "completed") "done") 2 3
    (by omega)
    (fun n hn => by interval_cases n <;> simp)
    (by simp)).1
  simpa using h

/-- C10: calling the poller with `max_attempts = 0` raises the timeout error
immediately (with zero reported seconds), performing zero status calls and
zero sleeps, for every status source. -/
theorem wait_for_crawl_completion_zero_attempts (source : Nat → StatusResponse)
    (poll_interval : Nat) :
    wait_for_crawl_completion source poll_interval 0 = ⟨.timedOut 0, 0, 0⟩ := by
  simp [wait_for_crawl_completion, pollLoop]

/-! ## API Gateway Client

Embedding of the four `FirecrawlClient` HTTP operations (lines 48-193).
JSON values are embedded as `PyVal`; the HTTP transport is a function from
requests to responses, and each operation returns the list of requests it
issued alongside its result, so that "exactly one request, no retry" is a
provable property of the trace.
-/

/-- A Python/JSON value. -/
inductive PyVal where
  | nullv
  | boolv (b : Bool)
  | str (s : String)
  | num (n : Int)
  | list (xs : List PyVal)
  | dict (entries : List (String × PyVal))

/-- Python `d[k] = v` on an insertion-ordered dict: overwrite in place when
the key exists, append otherwise. -/
def dictSet : List (String × PyVal) → String → PyVal → List (String × PyVal)
  | [], k, v => [(k, v)]
  | p :: ps, k, v => if p.1 = k then (k, v) :: ps else p :: dictSet ps k v

/-- Python `d.update(u)`: assign each key of `u` in order. -/
def dictUpdate (d u : List (String × PyVal)) : List (String × PyVal) :=
  u.foldl (fun acc p => dictSet acc p.1 p.2) d

/-- An HTTP request as built by the client. -/
structure HttpRequest where
  method : String
  url : String
  headers : List (String × String)
  body : Option (List (String × PyVal))

/-- An HTTP response: status code, parsed JSON body (`response.json()`, an
object for these endpoints), and raw text (`response.text`). -/
structure HttpResponse where
  status_code : Nat
  body : List (String × PyVal)
  text : String

/-- The failure raised on a non-200 response, carrying the status code and
the response body text interpolated into the exception message. -/
structure RemoteServiceError where
  status_code : Nat
  body : String

/-- Embedding of `FirecrawlClient._prepare_headers`. -/
def prepare_headers (api_key : Option String) (idempotency_key : Option String) :
    List (String × String) :=
  [("Content-Type", "application/json")]
    ++ (match api_key with
        | some k => [("Authorization", "Bearer " ++ k)]
        | none => [])
    ++ (match idempotency_key with
        | some k => [("x-idempotency-key", k)]
        | none => [])

/-- Embedding of `FirecrawlClient.scrape_url`: one POST to `/v1/scrape`; on
status 200 return the `data` envelope field (default empty dict), otherwise
fail with the status code and response text. -/
def scrape_url (api_url : String) (api_key : Option String)
    (send : HttpRequest → HttpResponse) (url : String)
    (params : Option (List (String × PyVal))) :
    List HttpRequest × Except RemoteServiceError PyVal :=
  let headers := prepare_headers api_key none
  let ps := params.getD [("formats", .list [.str "markdown"])]
  let json_data := dictUpdate [("url", .str url)] ps
  let req : HttpRequest := ⟨"POST", api_url ++ "/v1/scrape", headers, some json_data⟩
  let resp := send req
  if resp.status_code = 200 then
    ([req], .ok ((resp.body.lookup "data").getD (.dict [])))
  else
    ([req], .error ⟨resp.status_code, resp.text⟩)

/-- Embedding of `FirecrawlClient.crawl_url`: one POST to `/v1/crawl`; on
status 200 return the full parsed body. -/
def crawl_url (api_url : String) (api_key : Option String)
    (send : HttpRequest → HttpResponse) (url : String)
    (params : Option (List (String × PyVal))) :
    List HttpRequest × Except RemoteServiceError PyVal :=
  let headers := prepare_headers api_key none
  let ps := params.getD []
  let json_data := dictUpdate [("url", .str url)] ps
  let req : HttpRequest := ⟨"POST", api_url ++ "/v1/crawl", headers, some json_data⟩
  let resp := send req
  if resp.status_code = 200 then ([req], .ok (.dict resp.body))
  else ([req], .error ⟨resp.status_code, resp.text⟩)

/-- Embedding of `FirecrawlClient.check_crawl_status`: one GET to
`/v1/crawl/{id}`; on status 200 return the full parsed body. -/
def check_crawl_status (api_url : String) (api_key : Option String)
    (send : HttpRequest → HttpResponse) (crawl_id : String) :
    List HttpRequest × Except RemoteServiceError PyVal :=
  let headers := prepare_headers api_key none
  let req : HttpRequest := ⟨"GET", api_url ++ "/v1/crawl/" ++ crawl_id, headers, none⟩
  let resp := send req
  if resp.status_code = 200 then ([req], .ok (.dict resp.body))
  else ([req], .error ⟨resp.status_code, resp.text⟩)

/-- Embedding of `FirecrawlClient.map_url`: one POST to `/v1/map`; on status
200 return the full parsed body. -/
def map_url (api_url : String) (api_key : Option String)
    (send : HttpRequest → HttpResponse) (url : String)
    (params : Option (List (String × PyVal))) :
    List HttpRequest × Except RemoteServiceError PyVal :=
  let headers := prepare_headers api_key none
  let ps := params.getD []
  let json_data := dictUpdate [("url", .str url)] ps
  let req : HttpRequest := ⟨"POST", api_url ++ "/v1/map", headers, some json_data⟩
  let resp := send req
  if resp.status_code = 200 then ([req], .ok (.dict resp.body))
  else ([req], .error ⟨resp.status_code, resp.text⟩)

/-- An HTTP status outside the 2xx success range. -/
def nonSuccess (resp : HttpResponse) : Prop :=
  resp.status_code < 200 ∨ 299 < resp.status_code

/-- The Gateway Client contract an operation's trace must satisfy: exactly
one HTTP request was issued, and when that request's response has a
non-success status the operation fails with the status code and response
body, having issued no further request. -/
def gatewayContract (result : List HttpRequest × Except RemoteServiceError PyVal)
    (send : HttpRequest → HttpResponse) : Prop :=
  result.1.length = 1 ∧
  ∀ req, result.1 = [req] → nonSuccess (send req) →
    result.2 = .error ⟨(send req).status_code, (send req).text⟩

/-- C7: each of the four Gateway Client operations issues exactly one HTTP
request per invocation, and on a non-success response status fails with an
error carrying the status code and response body, with no retry. -/
theorem gateway_single_request_no_retry (api_url : String) (api_key : Option String)
    (send : HttpRequest → HttpResponse) (url crawl_id : String)
    (params : Option (List (String × PyVal))) :
    gatewayContract (scrape_url api_url api_key send url params) send ∧
    gatewayContract (crawl_url api_url api_key send url params) send ∧
    gatewayContract (check_crawl_status api_url api_key send crawl_id) send ∧
    gatewayContract (map_url api_url api_key send url params) send := by
  refine ⟨⟨?_, ?_⟩, ⟨?_, ?_⟩, ⟨?_, ?_⟩, ⟨?_, ?_⟩⟩ <;>
    simp only [gatewayContract, scrape_url, crawl_url, check_crawl_status, map_url]
  all_goals
    first
    | (split <;> rfl)
    | (intro req hreq hns
       split at hreq <;>
         (simp only [List.cons.injEq, and_true] at hreq
          subst hreq) <;>
         rename_i hcode <;>
         simp_all [nonSuccess])

theorem gateway_single_request_no_retry_witness :
    (scrape_url "http://api" none (fun _ => ⟨500, [], "boom"⟩) "u" none).2 =
      .error ⟨500, "boom"⟩ := by
  have h := (gateway_single_request_no_retry "http://api" none
    (fun _ => ⟨500, [], "boom"⟩) "u" "c" none).1.2
  exact h _ rfl (by right; decide)

/-- C8: on a successful (200) response, `scrape_url` returns the value of
the response body's `data` envelope field, while `crawl_url`,
`check_crawl_status`, and `map_url` return the full parsed body unmodified. -/
theorem gateway_success_payload (api_url : String) (api_key : Option String)
    (send : HttpRequest → HttpResponse) (url crawl_id : String)
    (params : Option (List (String × PyVal))) (v : PyVal) :
    (∀ req, (scrape_url api_url api_key send url params).1 = [req] →
      (send req).status_code = 200 → (send req).body.lookup "data" = some v →
      (scrape_url api_url api_key send url params).2 = .ok v) ∧
    (∀ req, (crawl_url api_url api_key send url params).1 = [req] →
      (send req).status_code = 200 →
      (crawl_url api_url api_key send url params).2 = .ok (.dict (send req).body)) ∧
    (∀ req, (check_crawl_status api_url api_key send crawl_id).1 = [req] →
      (send req).status_code = 200 →
      (check_crawl_status api_url api_key send crawl_id).2 = .ok (.dict (send req).body)) ∧
    (∀ req, (map_url api_url api_key send url params).1 = [req] →
      (send req).status_code = 200 →
      (map_url api_url api_key send url params).2 = .ok (.dict (send req).body)) := by
  refine ⟨?_, ?_, ?_, ?_⟩ <;>
    simp only [scrape_url, crawl_url, check_crawl_status, map_url]
  · intro req hreq h200 hdata
    split at hreq <;>
      (simp only [List.cons.injEq, and_true] at hreq
       subst hreq) <;>
      simp_all
  all_goals
    intro req hreq h200
    split at hreq <;>
      (simp only [List.cons.injEq, and_true] at hreq
       subst hreq) <;>
      simp_all

theorem gateway_success_payload_witness :
    (scrape_url "http://api" none (fun _ => ⟨200, [("data", .str "x")], "ok"⟩) "u" none).2 =
      .ok (.str "x") ∧
    (map_url "http://api" none (fun _ => ⟨200, [("links", .list [])], "ok"⟩) "u" none).2 =
      .ok (.dict [("links", .list [])]) := by
  constructor
  · exact (gateway_success_payload "http://api" none
      (fun _ => ⟨200, [("data", .str "x")], "ok"⟩) "u" "c" none (.str "x")).1 _ rfl rfl rfl
  · exact (gateway_success_payload "http://api" none
      (fun _ => ⟨200, [("links", .list [])], "ok"⟩) "u" "c" none .nullv).2.2.2 _ rfl rfl

/-! ## Export archive: browsing, search, and deletion

Embedding of the search and delete actions of
`FirecrawlExplorer._browse_exports` (lines 813-1046). A listed record is a
filename together with the optional sidecar metadata loaded from
`<base>.meta.json`; the category directory is again a list of filenames.
-/

/-- Python's `str.lower()` (ASCII case folding, as `Char.toLower`). -/
def strLower (s : String) : String := String.mk (s.data.map Char.toLower)

/-- Python's substring containment `needle in hay`. -/
def substrOf (needle hay : String) : Bool :=
  hay.data.tails.any (fun t => List.isPrefixOf needle.data t)

/-- Sidecar metadata attached to a listed record: the optional
`description`, `tags`, and `source_url` keys of the parsed sidecar JSON. -/
structure FileMeta where
  description : Option String
  tags : Option (List String)
  source_url : Option String
deriving DecidableEq, Repr

/-- A record shown by the export browser: filename plus optional sidecar
metadata. -/
structure FileInfo where
  name : String
  metadata : Option FileMeta
deriving DecidableEq, Repr

/-- The per-record match test of the search action: the lowercased term is
contained in the lowercased filename, or in the sidecar description, any
sidecar tag, or the sidecar source URL. -/
def matchesSearch (term : String) (fi : FileInfo) : Bool :=
  substrOf (strLower term) (strLower fi.name) ||
    (match fi.metadata with
     | none => false
     | some m =>
       (match m.description with
        | some d => substrOf (strLower term) (strLower d)
        | none => false) ||
       (match m.tags with
        | some ts => ts.any (fun tag => substrOf (strLower term) (strLower tag))
        | none => false) ||
       (match m.source_url with
        | some u => substrOf (strLower term) (strLower u)
        | none => false))

/-- The search action over the listed records: keep exactly the records that
match, preserving order. -/
def search_exports (term : String) (files : List FileInfo) : List FileInfo :=
  files.filter (matchesSearch term)

/-- Result of the delete action: the directory listing after the removal, or
the file-not-found failure raised by `os.remove`. -/
inductive DeleteResult where
  | ok (fs : List String)
  | notFound
deriving DecidableEq, Repr

/-- Embedding of the delete action: remove the content file (failing when it
does not exist), then remove the sidecar `<base>.meta.json` only if it
exists. -/
def delete_export (fs : List String) (path : String) : DeleteResult :=
  if path ∈ fs then
    let fs1 := fs.erase path
    let metaPath := (splitext path).1 ++ ".meta.json"
    if metaPath ∈ fs1 then .ok (fs1.erase metaPath) else .ok fs1
  else .notFound

/-- C5: deleting an existing record removes the content file and, when a
sidecar with the same base name exists, the sidecar too; deleting a record
whose content file does not exist fails with the not-found error; deleting a
record without a sidecar succeeds without error. -/
theorem delete_export_spec (fs : List String) (path : String)
    (hnd : fs.Nodup)
    (hmp : (splitext path).1 ++ ".meta.json" ≠ path) :
    (path ∉ fs → delete_export fs path = .notFound) ∧
    (path ∈ fs → (splitext path).1 ++ ".meta.json" ∈ fs →
      delete_export fs path =
        .ok ((fs.erase path).erase ((splitext path).1 ++ ".meta.json")) ∧
      path ∉ (fs.erase path).erase ((splitext path).1 ++ ".meta.json") ∧
      (splitext path).1 ++ ".meta.json" ∉
        (fs.erase path).erase ((splitext path).1 ++ ".meta.json")) ∧
    (path ∈ fs → (splitext path).1 ++ ".meta.json" ∉ fs →
      delete_export fs path = .ok (fs.erase path) ∧ path ∉ fs.erase path) := by
  refine ⟨?_, ?_, ?_⟩
  · intro hnotin
    simp [delete_export, hnotin]
  · intro hin hmeta
    have hmem1 : (splitext path).1 ++ ".meta.json" ∈ fs.erase path :=
      (hnd.mem_erase_iff).2 ⟨hmp, hmeta⟩
    refine ⟨by simp [delete_export, hin, hmem1], ?_, ?_⟩
    · intro hcontra
      have h2 := ((hnd.erase path).mem_erase_iff).1 hcontra
      exact absurd rfl ((hnd.mem_erase_iff).1 h2.2).1
    · intro hcontra
      exact absurd rfl (((hnd.erase path).mem_erase_iff).1 hcontra).1
  · intro hin hmeta
    have hmem1 : (splitext path).1 ++ ".meta.json" ∉ fs.erase path := by
      intro hcontra
      exact hmeta ((hnd.mem_erase_iff).1 hcontra).2
    refine ⟨by simp [delete_export, hin, hmem1], ?_⟩
    intro hcontra
    exact absurd rfl ((hnd.mem_erase_iff).1 hcontra).1

theorem delete_export_spec_witness :
    delete_export ["a.md", "a.meta.json", "b.txt"] "a.md" = .ok ["b.txt"] ∧
    delete_export ["b.txt"] "a.md" = .notFound ∧
    delete_export ["a.md", "b.txt"] "a.md" = .ok ["b.txt"] := by
  refine ⟨?_, ?_, ?_⟩
  · have h := ((delete_export_spec ["a.md", "a.meta.json", "b.txt"] "a.md"
      (by decide) (by decide)).2.1 (by decide) (by decide)).1
    rw [h]
    decide
  · exact (delete_export_spec ["b.txt"] "a.md" (by decide) (by decide)).1 (by decide)
  · have h := ((delete_export_spec ["a.md", "b.txt"] "a.md"
      (by decide) (by decide)).2.2 (by decide) (by decide)).1
    rw [h]
    decide

theorem matchesSearch_iff (term : String) (fi : FileInfo) :
    matchesSearch term fi = true ↔
      (substrOf (strLower term) (strLower fi.name) = true ∨
       ∃ m, fi.metadata = some m ∧
         ((∃ d, m.description = some d ∧ substrOf (strLower term) (strLower d) = true) ∨
          (∃ ts, m.tags = some ts ∧
            ∃ tag ∈ ts, substrOf (strLower term) (strLower tag) = true) ∨
          (∃ u, m.source_url = some u ∧ substrOf (strLower term) (strLower u) = true))) := by
  obtain ⟨name, md⟩ := fi
  cases md with
  | none => simp [matchesSearch]
  | some m =>
    obtain ⟨d, ts, u⟩ := m
    cases d <;> cases ts <;> cases u <;>
      simp [matchesSearch, List.any_eq_true, or_assoc]

/-- C6: the search action returns exactly the listed records whose
lowercased filename, sidecar description, sidecar tags, or sidecar source
URL contain the lowercased term; in particular a record tagged `research`
and described `quarterly report` is returned for the terms `research` and
`quarterly` but not for `unrelated`. -/
theorem search_exports_correct (term : String) (files : List FileInfo) :
    (∀ fi, fi ∈ search_exports term files ↔
      fi ∈ files ∧
        (substrOf (strLower term) (strLower fi.name) = true ∨
         ∃ m, fi.metadata = some m ∧
           ((∃ d, m.description = some d ∧ substrOf (strLower term) (strLower d) = true) ∨
            (∃ ts, m.tags = some ts ∧
              ∃ tag ∈ ts, substrOf (strLower term) (strLower tag) = true) ∨
            (∃ u, m.source_url = some u ∧
              substrOf (strLower term) (strLower u) = true)))) ∧
    (FileInfo.mk "file1.txt" (some ⟨some "quarterly report", some ["research"], none⟩) ∈
      search_exports "research"
        [⟨"file1.txt", some ⟨some "quarterly report", some ["research"], none⟩⟩]) ∧
    (FileInfo.mk "file1.txt" (some ⟨some "quarterly report", some ["research"], none⟩) ∈
      search_exports "quarterly"
        [⟨"file1.txt", some ⟨some "quarterly report", some ["research"], none⟩⟩]) ∧
    (FileInfo.mk "file1.txt" (some ⟨some "quarterly report", some ["research"], none⟩) ∉
      search_exports "unrelated"
        [⟨"file1.txt", some ⟨some "quarterly report", some ["research"], none⟩⟩]) := by
  refine ⟨?_, by decide, by decide, by decide⟩
  intro fi
  rw [search_exports, List.mem_filter]
  exact and_congr_right fun _ => matchesSearch_iff term fi

theorem strLower_empty : strLower "" = "" := rfl

theorem substrOf_empty (hay : String) : substrOf "" hay = true := by
  simp only [substrOf, List.any_eq_true]
  refine ⟨hay.data, ?_, ?_⟩
  · simp [List.mem_tails]
  · simp [List.isPrefixOf]

/-- C9: the search term is matched by lowercased substring containment, so
searching with the empty term returns every listed record: the empty string
is contained in every filename. -/
theorem search_empty_term_returns_all (files : List FileInfo) :
    search_exports "" files = files := by
  rw [search_exports]
  apply List.filter_eq_self.2
  intro fi _
  simp [matchesSearch, strLower_empty, substrOf_empty]

/-! ## Session Controller: the save dialog's metadata handling

Embedding of the metadata portion of `FirecrawlExplorer._handle_save_dialog`
(lines 1250-1306): when metadata was entered and the format is JSON with
dict content, the metadata is merged into the content under its `metadata`
key before saving; otherwise a `<base>.meta.json` sidecar is written next to
the saved file.
-/

/-- The metadata gathered by the save dialog: the `description` and `tags`
keys of the `metadata` dict (each present only when the operator entered a
nonempty value). -/
structure ExportMeta where
  description : Option String
  tags : Option (List String)

/-- The dialog's `metadata` dict as a JSON value (keys in insertion order). -/
def metaAsPyVal (meta : ExportMeta) : PyVal :=
  .dict ((match meta.description with
          | some d => [("description", PyVal.str d)]
          | none => [])
    ++ (match meta.tags with
        | some ts => [("tags", PyVal.list (ts.map PyVal.str))]
        | none => []))

/-- Python's `isinstance(data, dict)`. -/
def PyVal.isDict : PyVal → Bool
  | .dict _ => true
  | _ => false

/-- The dict passed to `data["metadata"].update(...)` by the save dialog. -/
def exportInfoUpdate (meta : ExportMeta) (now url : String) : List (String × PyVal) :=
  [("export_info", metaAsPyVal meta), ("export_date", .str now), ("source_url", .str url)]

/-- The merge step of the save dialog: ensure `data["metadata"]` is a dict
(creating an empty one when the key is absent) and update it with the export
info; `none` models the exception raised when an existing `metadata` value
is not a dict. -/
def mergeExportMetadata (d : List (String × PyVal)) (meta : ExportMeta) (now url : String) :
    Option (List (String × PyVal)) :=
  match d.lookup "metadata" with
  | some (.dict inner) =>
    some (dictSet d "metadata" (.dict (dictUpdate inner (exportInfoUpdate meta now url))))
  | some _ => none
  | none =>
    some (dictSet d "metadata" (.dict (dictUpdate [] (exportInfoUpdate meta now url))))

/-- The sidecar JSON written by the save dialog for non-JSON content. -/
def sidecarJson (meta : ExportMeta) (now url format_type : String) : List (String × PyVal) :=
  [("description", .str (meta.description.getD "")),
   ("tags", .list ((meta.tags.getD []).map PyVal.str)),
   ("export_date", .str now),
   ("source_url", .str url),
   ("format", .str format_type)]

/-- Result of the save dialog: the stored path, the content value actually
written, the sidecar file (path and JSON) when one was created, and the
directory listing afterwards. -/
structure SaveDialogResult where
  savedPath : String
  savedData : PyVal
  sidecar : Option (String × List (String × PyVal))
  archive : List String

/-- Embedding of the save portion of `_handle_save_dialog`: merge metadata
into JSON dict content, save via `save_to_file`, then write a sidecar when
metadata was entered and the content is not a JSON dict. -/
def handle_save_dialog (fs : List String) (data : PyVal) (filename format_type : String)
    (meta : ExportMeta) (url now : String) (fuel : Nat) : Option SaveDialogResult :=
  let metaNonempty := meta.description.isSome || meta.tags.isSome
  let merged : Option PyVal :=
    if metaNonempty && (format_type == "json") && data.isDict then
      match data with
      | .dict d => (mergeExportMetadata d meta now url).map PyVal.dict
      | _ => none
    else some data
  match merged with
  | none => none
  | some data2 =>
    match save_to_file fs filename format_type fuel with
    | none => none
    | some pr =>
      if metaNonempty && (!(format_type == "json") || !data.isDict) then
        let metaPath := (splitext pr.1).1 ++ ".meta.json"
        some ⟨pr.1, data2, some (metaPath, sidecarJson meta now url format_type),
          metaPath :: pr.2⟩
      else
        some ⟨pr.1, data2, none, pr.2⟩

theorem dictSet_lookup_self (d : List (String × PyVal)) (k : String) (v : PyVal) :
    (dictSet d k v).lookup k = some v := by
  induction d with
  | nil => simp [dictSet, List.lookup]
  | cons p ps ih =>
    by_cases h : p.1 = k
    · simp [dictSet, h, List.lookup]
    · have hb : (k == p.1) = false := beq_eq_false_iff_ne.2 (Ne.symm h)
      simp [dictSet, h, List.lookup, hb, ih]

theorem dictSet_lookup_ne (d : List (String × PyVal)) (k k2 : String) (v : PyVal)
    (h : k2 ≠ k) : (dictSet d k v).lookup k2 = d.lookup k2 := by
  have hb : (k2 == k) = false := beq_eq_false_iff_ne.2 h
  induction d with
  | nil => simp [dictSet, List.lookup, hb]
  | cons p ps ih =>
    by_cases hp : p.1 = k
    · subst hp
      simp [dictSet, List.lookup, hb]
    · simp only [dictSet, hp, if_false]
      by_cases hp2 : k2 = p.1
      · subst hp2
        simp [List.lookup]
      · have hb2 : (k2 == p.1) = false := beq_eq_false_iff_ne.2 hp2
        simp [List.lookup, hb2, ih]

theorem dictUpdate_exportInfo_lookups (base : List (String × PyVal))
    (meta : ExportMeta) (now url : String) :
    (dictUpdate base (exportInfoUpdate meta now url)).lookup "export_info" =
      some (metaAsPyVal meta) ∧
    (dictUpdate base (exportInfoUpdate meta now url)).lookup "export_date" =
      some (.str now) ∧
    (dictUpdate base (exportInfoUpdate meta now url)).lookup "source_url" =
      some (.str url) := by
  have hd : dictUpdate base (exportInfoUpdate meta now url) =
      dictSet (dictSet (dictSet base "export_info" (metaAsPyVal meta))
        "export_date" (.str now)) "source_url" (.str url) := rfl
  rw [hd]
  refine ⟨?_, ?_, ?_⟩
  · rw [dictSet_lookup_ne _ _ _ _ (by decide), dictSet_lookup_ne _ _ _ _ (by decide),
      dictSet_lookup_self]
  · rw [dictSet_lookup_ne _ _ _ _ (by decide), dictSet_lookup_self]
  · rw [dictSet_lookup_self]

theorem mergeExportMetadata_lookup (d : List (String × PyVal)) (meta : ExportMeta)
    (now url : String) (d2 : List (String × PyVal))
    (h : mergeExportMetadata d meta now url = some d2) :
    ∃ inner, d2.lookup "metadata" = some (.dict inner) ∧
      inner.lookup "export_info" = some (metaAsPyVal meta) ∧
      inner.lookup "export_date" = some (.str now) ∧
      inner.lookup "source_url" = some (.str url) := by
  unfold mergeExportMetadata at h
  cases hl : d.lookup "metadata" with
  | none =>
    simp only [hl, Option.some.injEq] at h
    subst h
    exact ⟨_, dictSet_lookup_self _ _ _, dictUpdate_exportInfo_lookups [] meta now url⟩
  | some v =>
    cases v with
    | dict inner =>
      simp only [hl, Option.some.injEq] at h
      subst h
      exact ⟨_, dictSet_lookup_self _ _ _, dictUpdate_exportInfo_lookups inner meta now url⟩
    | nullv => simp [hl] at h
    | boolv b => simp [hl] at h
    | str s => simp [hl] at h
    | num n => simp [hl] at h
    | list xs => simp [hl] at h

/-- C4: when metadata was entered, the save dialog merges it into the saved
content (under the `metadata` key, with export info, export date, and source
URL) and writes no sidecar when the content is a JSON dict; otherwise it
leaves the content unchanged and writes a `<same-base>.meta.json` sidecar
holding the description, tags, export timestamp, source URL, and format. -/
theorem handle_save_dialog_metadata (fs : List String) (data : PyVal)
    (filename format_type : String) (meta : ExportMeta) (url now : String)
    (fuel : Nat) (res : SaveDialogResult)
    (hmeta : (meta.description.isSome || meta.tags.isSome) = true)
    (hres : handle_save_dialog fs data filename format_type meta url now fuel = some res) :
    (∀ d, format_type = "json" → data = .dict d →
      res.sidecar = none ∧
      ∃ d2, res.savedData = .dict d2 ∧
        ∃ inner, d2.lookup "metadata" = some (.dict inner) ∧
          inner.lookup "export_info" = some (metaAsPyVal meta) ∧
          inner.lookup "export_date" = some (.str now) ∧
          inner.lookup "source_url" = some (.str url)) ∧
    ((format_type ≠ "json" ∨ data.isDict = false) →
      res.savedData = data ∧
      res.sidecar = some ((splitext res.savedPath).1 ++ ".meta.json",
        sidecarJson meta now url format_type)) := by
  constructor
  · rintro d rfl rfl
    cases hm : mergeExportMetadata d meta now url with
    | none =>
      have heq : handle_save_dialog fs (.dict d) filename "json" meta url now fuel = none := by
        simp [handle_save_dialog, hmeta, hm, PyVal.isDict]
      rw [heq] at hres
      exact absurd hres (by simp)
    | some d2 =>
      cases hsave : save_to_file fs filename "json" fuel with
      | none =>
        have heq : handle_save_dialog fs (.dict d) filename "json" meta url now fuel = none := by
          simp [handle_save_dialog, hmeta, hm, hsave, PyVal.isDict]
        rw [heq] at hres
        exact absurd hres (by simp)
      | some pr =>
        have heq : handle_save_dialog fs (.dict d) filename "json" meta url now fuel =
            some ⟨pr.1, PyVal.dict d2, none, pr.2⟩ := by
          simp [handle_save_dialog, hmeta, hm, hsave, PyVal.isDict]
        rw [heq] at hres
        obtain rfl := (Option.some.inj hres).symm
        exact ⟨rfl, d2, rfl, mergeExportMetadata_lookup d meta now url d2 hm⟩
  · intro h2
    have hc1 : ((meta.description.isSome || meta.tags.isSome) &&
        (format_type == "json") && data.isDict) = false := by
      rcases h2 with h | h
      · have hb : (format_type == "json") = false := beq_eq_false_iff_ne.2 h
        rw [hb, Bool.and_false, Bool.false_and]
      · rw [h, Bool.and_false]
    have hc2 : ((meta.description.isSome || meta.tags.isSome) &&
        (!(format_type == "json") || !data.isDict)) = true := by
      rcases h2 with h | h
      · have hb : (format_type == "json") = false := beq_eq_false_iff_ne.2 h
        rw [hb, hmeta]
        simp
      · rw [h, hmeta]
        simp
    cases hsave : save_to_file fs filename format_type fuel with
    | none =>
      have heq : handle_save_dialog fs data filename format_type meta url now fuel = none := by
        simp [handle_save_dialog, hc1, hsave]
      rw [heq] at hres
      exact absurd hres (by simp)
    | some pr =>
      have heq : handle_save_dialog fs data filename format_type meta url now fuel =
          some ⟨pr.1, data,
            some ((splitext pr.1).1 ++ ".meta.json", sidecarJson meta now url format_type),
            ((splitext pr.1).1 ++ ".meta.json") :: pr.2⟩ := by
        simp [handle_save_dialog, hc1, hc2, hsave]
      rw [heq] at hres
      obtain rfl := (Option.some.inj hres).symm
      exact ⟨rfl, rfl⟩

theorem handle_save_dialog_metadata_witness :
    (handle_save_dialog [] (PyVal.str "hello") "f" "markdown"
        ⟨some "d", some ["t"]⟩ "u" "2024" 1).isSome = true ∧
    ((handle_save_dialog [] (PyVal.str "hello") "f" "markdown"
        ⟨some "d", some ["t"]⟩ "u" "2024" 1).getD ⟨"", .nullv, none, []⟩).savedData =
      PyVal.str "hello" ∧
    ((handle_save_dialog [] (PyVal.str "hello") "f" "markdown"
        ⟨some "d", some ["t"]⟩ "u" "2024" 1).getD ⟨"", .nullv, none, []⟩).sidecar =
      some ("f.meta.json", sidecarJson ⟨some "d", some ["t"]⟩ "2024" "u" "markdown") := by
  have h := (handle_save_dialog_metadata [] (PyVal.str "hello") "f" "markdown"
    ⟨some "d", some ["t"]⟩ "u" "2024" 1
    ⟨"f.md", PyVal.str "hello",
      some ("f.meta.json", sidecarJson ⟨some "d", some ["t"]⟩ "2024" "u" "markdown"),
      ["f.meta.json", "f.md"]⟩
    rfl rfl).2 (Or.inl (by decide))
  exact ⟨rfl, h.1, h.2⟩

end FirecrawlSpec
